import Mathlib

/-!
# A verification development of the pycosat binding (`pycosat.c`)

This file gives a shallow embedding of the C source `pycosat.c`, the Python
binding around the picosat SAT engine, together with theorems about the
binding's behaviour.

The binding functions (`add_clause`, `add_clauses`, `setup_picosat`,
`get_solution`, `solve`, `blocksol`, `itersolve`, `soliter_next`,
`soliter_dealloc`) are translated line by line from the C source.  The engine
itself (picosat) is not part of the translated source; it is reached through
the fixed contract of the spec (engine operations `new`, `add_literal`,
`terminate_clause`, `solve`, `variable_count`, `value_of`, `reset`, the
propagation limit and the variable-count hint), and the corresponding
definitions below are modelled from that contract.

Conventions of the embedding:
* Python integers become `Int`; the Python-level type checks of `add_clause`
  (`PyList_Check` / `IS_INT`) cannot fail on typed Lean inputs, so the only
  reachable validation error is the zero-literal `ValueError`.
* A total assignment over the engine's variables `1..N` is a `List Bool` of
  length `N`, position `i-1` holding the value of variable `i`.
* Side effects that the claims talk about (engine reset, scratch-buffer
  allocation and free, GIL release/acquire around the engine call) are
  recorded as an explicit event list returned next to each function's result.
* Out-of-memory failures of the host allocator are not modelled: allocation
  always succeeds and is recorded as an `allocMem` event.
-/

namespace Pycosat

/-- Result code of an engine invocation.  Per the spec's engine contract the
only possible outcomes are SATISFIABLE, UNSATISFIABLE and UNKNOWN; the C
`default:` branches (a `SystemError`) are unreachable under that contract. -/
inductive SatRes where
  | satisfiable
  | unsatisfiable
  | unknown
  deriving DecidableEq, Repr

/-- Observable side effects of the binding functions: engine teardown
(`picosat_reset`), scratch-buffer allocation/free (`PyMem_Malloc` /
`PyMem_Free` of `mem`), the engine invocation, and the GIL release/acquire
pair (`Py_BEGIN_ALLOW_THREADS` / `Py_END_ALLOW_THREADS`) around it. -/
inductive Ev where
  | reset
  | allocMem
  | freeMem
  | gilRelease
  | gilAcquire
  | satCall
  deriving DecidableEq, Repr

/-- Modelled from the spec: the state of one engine instance (one Solver
Session).  The engine records the literal stream fed to it (`pending` is the
current unterminated clause, `clauses` the terminated ones), the variable
range `1..maxVar` it has seen (grown by every added literal and by the
variable-count hint), the optional propagation limit, the verbosity level and,
after a SATISFIABLE invocation, the satisfying assignment that `value_of`
exposes. -/
structure PicoSAT where
  maxVar : Nat
  pending : List Int
  clauses : List (List Int)
  propLimit : Option Nat
  verbosity : Int
  lastSolution : Option (List Bool)
  deriving DecidableEq, Repr

/-- Modelled from the spec: `new(allocator)` — a fresh engine instance
(`picosat_minit` with the allocator shim). -/
def picosat_minit : PicoSAT :=
  { maxVar := 0, pending := [], clauses := [], propLimit := none,
    verbosity := 0, lastSolution := none }

/-- Modelled from the spec: `add_literal(handle, int)` / `terminate_clause`.
A zero terminates the current clause; a non-zero literal is appended to the
current clause and extends the tracked variable range to cover its index. -/
def picosat_add (ps : PicoSAT) (lit : Int) : PicoSAT :=
  if lit = 0 then
    { ps with pending := [], clauses := ps.clauses ++ [ps.pending] }
  else
    { ps with
      pending := ps.pending ++ [lit]
      maxVar := max ps.maxVar lit.natAbs }

/-- Modelled from the spec: `reserve_variables(handle, n)` (`picosat_adjust`)
— the variable-count hint pre-sizes the variable table, so the tracked range
covers at least `1..n`. -/
def picosat_adjust (ps : PicoSAT) (n : Int) : PicoSAT :=
  { ps with maxVar := max ps.maxVar n.toNat }

/-- Modelled from the spec: `variable_count(handle)` (`picosat_variables`) —
the number of variables the engine tracks, i.e. the top of the variable range
`1..N` it has seen. -/
def picosat_variables (ps : PicoSAT) : Nat :=
  ps.maxVar

/-- Modelled from the spec: `value_of(handle, var_index)` (`picosat_deref`) —
after a SATISFIABLE invocation, `1` if the variable is assigned true and `-1`
if false; `0` when no assignment is available. -/
def picosat_deref (ps : PicoSAT) (i : Nat) : Int :=
  match ps.lastSolution with
  | some a => if a.getD (i - 1) false then 1 else -1
  | none => 0

/-- Truth value of the literal `l` under the assignment `a` (variable `i` at
position `i-1`): standard negation semantics. -/
def evalLit (a : List Bool) (l : Int) : Bool :=
  if 0 < l then a.getD (l.natAbs - 1) false else !(a.getD (l.natAbs - 1) false)

/-- Truth value of a clause under `a`: disjunction of its literals. -/
def evalClause (a : List Bool) (c : List Int) : Bool :=
  c.any (evalLit a)

/-- Truth value of a clause set under `a`: conjunction of its clauses. -/
def evalCNF (a : List Bool) (cs : List (List Int)) : Bool :=
  cs.all (evalClause a)

/-- All total assignments over `n` variables, in a fixed order. -/
def allAssign : Nat → List (List Bool)
  | 0 => [[]]
  | n + 1 =>
    ((allAssign n).map (fun a => false :: a)) ++
      ((allAssign n).map (fun a => true :: a))

/-- The satisfying total assignments over the engine's tracked variables, in
the engine's fixed search order. -/
def satisfying (ps : PicoSAT) : List (List Bool) :=
  (allAssign ps.maxVar).filter (fun a => evalCNF a ps.clauses)

/-- Modelled from the spec: `solve(handle, budget)` (`picosat_sat`) — returns
SATISFIABLE and exposes a satisfying total assignment over the tracked
variables when one exists, UNSATISFIABLE when none exists, and UNKNOWN exactly
when an installed propagation limit caps the search effort below what the
instance needs (the effort is modelled as the search-space size `2 ^ N`).
The decision-budget argument is `-1` (unbounded) at every call site and is
ignored. -/
def picosat_sat (ps : PicoSAT) (_budget : Int) : SatRes × PicoSAT :=
  let core : SatRes × PicoSAT :=
    match (satisfying ps).head? with
    | some a => (SatRes.satisfiable, { ps with lastSolution := some a })
    | none => (SatRes.unsatisfiable, { ps with lastSolution := none })
  match ps.propLimit with
  | some l => if l < 2 ^ ps.maxVar then (SatRes.unknown, ps) else core
  | none => core

/-- `add_clause` from the source: feed the literals of one clause into the
engine, then the terminator.  A literal equal to `0` raises the ValueError
`"non-zero interger expected"` (sic) at once; the literals before it have
already been pushed and the clause is left unterminated. -/
def add_clause (ps : PicoSAT) : List Int → PicoSAT × Option String
  | [] => (picosat_add ps 0, none)
  | v :: rest =>
    if v = 0 then (ps, some "non-zero interger expected")
    else add_clause (picosat_add ps v) rest

/-- `add_clauses` from the source: feed every clause, stopping at the first
failing clause. -/
def add_clauses (ps : PicoSAT) : List (List Int) → PicoSAT × Option String
  | [] => (ps, none)
  | c :: rest =>
    match add_clause ps c with
    | (ps1, some msg) => (ps1, some msg)
    | (ps1, none) => add_clauses ps1 rest

/-- `setup_picosat` from the source: create the engine with the allocator
shim, apply verbosity, apply the variable-count hint when `vars ≠ -1`, install
the propagation limit when non-zero, then ingest the clauses; on a validation
failure reset (destroy) the engine and propagate the error. -/
def setup_picosat (clauses : List (List Int)) (vars verbose : Int)
    (prop_limit : Nat) : Except String PicoSAT × List Ev :=
  let ps0 := picosat_minit
  let ps1 := { ps0 with verbosity := verbose }
  let ps2 := if vars ≠ -1 then picosat_adjust ps1 vars else ps1
  let ps3 := if prop_limit ≠ 0 then { ps2 with propLimit := some prop_limit }
    else ps2
  match add_clauses ps3 clauses with
  | (_, some msg) => (Except.error msg, [Ev.reset])
  | (ps4, none) => (Except.ok ps4, [])

/-- `get_solution` from the source: for each variable `i` in `1..N` read its
value `v = picosat_deref(ps, i) ∈ {1, -1}` and emit `v * i` at position
`i - 1`. -/
def get_solution (ps : PicoSAT) : List Int :=
  (List.range (picosat_variables ps)).map
    (fun k => picosat_deref ps (k + 1) * ((k : Int) + 1))

/-- Outcome of `solve`: a satisfying assignment, the string `"UNSAT"`, the
string `"UNKNOWN"`, or a raised error. -/
inductive SolveOutcome where
  | solution (xs : List Int)
  | unsat
  | unknown
  | error (msg : String)
  deriving DecidableEq, Repr

/-- `solve` from the source: set up the session (propagating a setup error),
invoke the engine once with the GIL released, decode on SATISFIABLE, and reset
the engine before returning. -/
def solve (clauses : List (List Int)) (vars verbose : Int) (prop_limit : Nat) :
    SolveOutcome × List Ev :=
  match setup_picosat clauses vars verbose prop_limit with
  | (Except.error msg, evs) => (SolveOutcome.error msg, evs)
  | (Except.ok ps, evs0) =>
    let (res, ps1) := picosat_sat ps (-1)
    let gil := [Ev.gilRelease, Ev.satCall, Ev.gilAcquire]
    match res with
    | SatRes.satisfiable =>
      (SolveOutcome.solution (get_solution ps1), evs0 ++ gil ++ [Ev.reset])
    | SatRes.unsatisfiable => (SolveOutcome.unsat, evs0 ++ gil ++ [Ev.reset])
    | SatRes.unknown => (SolveOutcome.unknown, evs0 ++ gil ++ [Ev.reset])

/-- The solution iterator object (`soliterobject`): the owned engine handle
and the scratch-buffer pointer `mem` (`none` models the NULL pointer). -/
structure soliterobject where
  picosat : PicoSAT
  mem : Option (List Int)
  deriving DecidableEq, Repr

/-- The value the fill loop of `blocksol` writes into `mem[i]`:
`1` when `picosat_deref(picosat, i) > 0`, else `-1`. -/
def memVal (ps : PicoSAT) (i : Nat) : Int :=
  if 0 < picosat_deref ps i then 1 else -1

/-- `blocksol` from the source: receives the scratch-buffer pointer **by
value**; when it is NULL a fresh buffer of `max_idx + 1` bytes is allocated
(recorded as an `allocMem` event) — the caller's pointer is not updated.  The
buffer is filled with the polarity of each variable, then for each `i` in
`1..max_idx` the literal `mem[i] < 0 ? i : -i` is added, then the terminator.
The add loop's read `mem[i]` is collapsed with the store the fill loop just
performed, i.e. it is `memVal ps i`; the filled buffer (entry `0` unused) is
returned as the function's local pointer value. -/
def blocksol (ps : PicoSAT) (mem : Option (List Int)) :
    PicoSAT × List Int × List Ev :=
  let max_idx := picosat_variables ps
  let evs : List Ev := match mem with
    | none => [Ev.allocMem]
    | some _ => []
  let filled : List Int :=
    (List.range (max_idx + 1)).map (fun i => if i = 0 then 0 else memVal ps i)
  let ps1 := (List.range max_idx).foldl
    (fun acc k =>
      picosat_add acc
        (if memVal ps (k + 1) < 0 then ((k : Int) + 1) else -((k : Int) + 1)))
    ps
  (picosat_add ps1 0, filled, evs)

/-- `itersolve` from the source: set up a session (propagating a setup error)
and wrap it in an iterator whose scratch-buffer pointer starts NULL. -/
def itersolve (clauses : List (List Int)) (vars verbose : Int)
    (prop_limit : Nat) : Except String soliterobject × List Ev :=
  match setup_picosat clauses vars verbose prop_limit with
  | (Except.error msg, evs) => (Except.error msg, evs)
  | (Except.ok ps, evs) => (Except.ok { picosat := ps, mem := none }, evs)

/-- `soliter_next` from the source: invoke the engine with the GIL released.
On SATISFIABLE, decode the solution, add the blocking clause via
`blocksol(it->picosat, it->mem)` — note that `it->mem` is passed by value and
never written back — and yield the solution.  On UNSATISFIABLE or UNKNOWN,
yield nothing (the engine is *not* reset here). -/
def soliter_next (it : soliterobject) :
    Option (List Int) × soliterobject × List Ev :=
  let (res, ps1) := picosat_sat it.picosat (-1)
  let gil := [Ev.gilRelease, Ev.satCall, Ev.gilAcquire]
  match res with
  | SatRes.satisfiable =>
    let result := get_solution ps1
    let (ps2, _localMem, evs) := blocksol ps1 it.mem
    (some result, { picosat := ps2, mem := it.mem }, gil ++ evs)
  | SatRes.unsatisfiable => (none, { it with picosat := ps1 }, gil)
  | SatRes.unknown => (none, { it with picosat := ps1 }, gil)

/-- `soliter_dealloc` from the source: free the scratch buffer when the
iterator's pointer is non-NULL, then reset (destroy) the engine. -/
def soliter_dealloc (it : soliterobject) : List Ev :=
  (match it.mem with
    | some _ => [Ev.freeMem]
    | none => []) ++ [Ev.reset]

/-- Driving the iterator: repeatedly call `soliter_next`, collecting the
yielded solutions, stopping at the first empty yield (the `StopIteration` of
the Python iteration protocol) or after `fuel` advances. -/
def iterRun : soliterobject → Nat → List (List Int) × soliterobject
  | it, 0 => ([], it)
  | it, fuel + 1 =>
    match soliter_next it with
    | (some sol, it1, _) =>
      let (rest, it2) := iterRun it1 fuel
      (sol :: rest, it2)
    | (none, it1, _) => ([], it1)

/-! ## Basic facts about assignments -/

theorem mem_allAssign : ∀ (n : Nat) (a : List Bool), a ∈ allAssign n ↔ a.length = n := by
  intro n
  induction n with
  | zero =>
    intro a
    simp [allAssign, List.length_eq_zero]
  | succ n ih =>
    intro a
    simp only [allAssign, List.mem_append, List.mem_map]
    constructor
    · rintro (⟨b, hb, rfl⟩ | ⟨b, hb, rfl⟩) <;> simp [(ih b).1 hb]
    · intro ha
      cases a with
      | nil => simp at ha
      | cons x t =>
        have ht : t.length = n := by simpa using ha
        cases x
        · exact Or.inl ⟨t, (ih t).2 ht, rfl⟩
        · exact Or.inr ⟨t, (ih t).2 ht, rfl⟩

theorem allAssign_nodup : ∀ n, (allAssign n).Nodup := by
  intro n
  induction n with
  | zero => simp [allAssign]
  | succ n ih =>
    simp only [allAssign]
    refine List.Nodup.append ?_ ?_ ?_
    · exact ih.map (fun a b h => by injection h)
    · exact ih.map (fun a b h => by injection h)
    · intro x hx hy
      rcases List.mem_map.1 hx with ⟨b, _, rfl⟩
      rcases List.mem_map.1 hy with ⟨c, _, hc⟩
      injection hc with h1 h2
      exact Bool.noConfusion h1

theorem getD_ext {a b : List Bool} {n : Nat} (ha : a.length = n) (hb : b.length = n)
    (h : ∀ k, k < n → a.getD k false = b.getD k false) : a = b := by
  apply List.ext_getElem (ha.trans hb.symm)
  intro i h1 h2
  have hi := h i (by omega)
  rwa [List.getD_eq_getElem a false h1, List.getD_eq_getElem b false h2] at hi

/-! ## Clause ingestion -/

/-- The running maximum of `|l|` over the literals of one clause, exactly the
`maxVar` updates `picosat_add` performs along the clause. -/
def clauseMax (c : List Int) (m : Nat) : Nat :=
  c.foldl (fun acc l => max acc l.natAbs) m

/-- The running maximum of `|l|` over all literals of a clause set. -/
def cnfMax (cs : List (List Int)) (m : Nat) : Nat :=
  cs.foldl (fun acc c => clauseMax c acc) m

/-- The variable count the engine tracks after a successful setup: the
maximum variable index referenced in the clauses, floored by the `vars` hint
when one is given. -/
def varCount (cs : List (List Int)) (vars : Int) : Nat :=
  cnfMax cs (if vars = -1 then 0 else vars.toNat)

theorem le_clauseMax : ∀ (c : List Int) (m : Nat), m ≤ clauseMax c m := by
  intro c
  induction c with
  | nil => intro m; exact Nat.le_refl m
  | cons l rest ih =>
    intro m
    exact Nat.le_trans (Nat.le_max_left m l.natAbs) (ih (max m l.natAbs))

theorem natAbs_le_clauseMax : ∀ (c : List Int) (m : Nat) (l : Int), l ∈ c →
    l.natAbs ≤ clauseMax c m := by
  intro c
  induction c with
  | nil => intro m l h; simp at h
  | cons v rest ih =>
    intro m l h
    rcases List.mem_cons.1 h with rfl | h
    · exact Nat.le_trans (Nat.le_max_right m l.natAbs) (le_clauseMax rest _)
    · exact ih _ l h

theorem clauseMax_eq_of_le : ∀ (c : List Int) (m : Nat),
    (∀ l ∈ c, l.natAbs ≤ m) → clauseMax c m = m := by
  intro c
  induction c with
  | nil => intro m _; rfl
  | cons v rest ih =>
    intro m h
    have hv : max m v.natAbs = m :=
      Nat.max_eq_left (h v (List.mem_cons_self v rest))
    show clauseMax rest (max m v.natAbs) = m
    rw [hv]
    exact ih m (fun l hl => h l (List.mem_cons_of_mem v hl))

theorem le_cnfMax : ∀ (cs : List (List Int)) (m : Nat), m ≤ cnfMax cs m := by
  intro cs
  induction cs with
  | nil => intro m; exact Nat.le_refl m
  | cons c rest ih =>
    intro m
    exact Nat.le_trans (le_clauseMax c m) (ih (clauseMax c m))

theorem natAbs_le_cnfMax : ∀ (cs : List (List Int)) (m : Nat) (c : List Int),
    c ∈ cs → ∀ l ∈ c, l.natAbs ≤ cnfMax cs m := by
  intro cs
  induction cs with
  | nil => intro m c h; simp at h
  | cons d rest ih =>
    intro m c h l hl
    rcases List.mem_cons.1 h with rfl | h
    · exact Nat.le_trans (natAbs_le_clauseMax c m l hl) (le_cnfMax rest _)
    · exact ih _ c h l hl

theorem picosat_add_ne (ps : PicoSAT) {v : Int} (hv : v ≠ 0) :
    picosat_add ps v =
      { ps with
        pending := ps.pending ++ [v]
        maxVar := max ps.maxVar v.natAbs } := by
  simp [picosat_add, hv]

theorem add_clause_ok : ∀ (c : List Int) (ps ps' : PicoSAT),
    add_clause ps c = (ps', none) →
    ps'.pending = [] ∧
    ps'.clauses = ps.clauses ++ [ps.pending ++ c] ∧
    ps'.maxVar = clauseMax c ps.maxVar ∧
    ps'.propLimit = ps.propLimit ∧
    ps'.verbosity = ps.verbosity ∧
    ps'.lastSolution = ps.lastSolution ∧
    ∀ l ∈ c, l ≠ 0 := by
  intro c
  induction c with
  | nil =>
    intro ps ps' h
    simp only [add_clause, picosat_add, if_pos] at h
    injection h with h1 h2
    subst h1
    simp [clauseMax]
  | cons v rest ih =>
    intro ps ps' h
    simp only [add_clause] at h
    by_cases hv : v = 0
    · rw [if_pos hv] at h
      injection h with h1 h2
      exact Option.noConfusion h2
    · rw [if_neg hv, picosat_add_ne ps hv] at h
      obtain ⟨h1, h2, h3, h4, h5, h6, h7⟩ := ih _ _ h
      refine ⟨h1, ?_, ?_, h4, h5, h6, ?_⟩
      · rw [h2]
        simp
      · rw [h3]
        rfl
      · intro l hl
        rcases List.mem_cons.1 hl with rfl | hl
        · exact hv
        · exact h7 l hl

theorem add_clauses_ok : ∀ (cs : List (List Int)) (ps ps' : PicoSAT),
    ps.pending = [] →
    add_clauses ps cs = (ps', none) →
    ps'.pending = [] ∧
    ps'.clauses = ps.clauses ++ cs ∧
    ps'.maxVar = cnfMax cs ps.maxVar ∧
    ps'.propLimit = ps.propLimit ∧
    ps'.verbosity = ps.verbosity ∧
    ps'.lastSolution = ps.lastSolution ∧
    ∀ c ∈ cs, ∀ l ∈ c, l ≠ 0 := by
  intro cs
  induction cs with
  | nil =>
    intro ps ps' hp h
    simp only [add_clauses] at h
    injection h with h1 h2
    subst h1
    simp [cnfMax, hp]
  | cons c rest ih =>
    intro ps ps' hp h
    simp only [add_clauses] at h
    split at h
    · injection h with h1 h2
      exact Option.noConfusion h2
    · rename_i ps1 heq
      obtain ⟨a1, a2, a3, a4, a5, a6, a7⟩ := add_clause_ok c ps ps1 heq
      obtain ⟨b1, b2, b3, b4, b5, b6, b7⟩ := ih ps1 ps' a1 h
      refine ⟨b1, ?_, ?_, b4.trans a4, b5.trans a5, b6.trans a6, ?_⟩
      · rw [b2, a2, hp]
        simp
      · rw [b3, a3]
        rfl
      · intro d hd
        rcases List.mem_cons.1 hd with rfl | hd
        · exact a7
        · exact b7 d hd

theorem add_clause_msg : ∀ (c : List Int) (ps ps1 : PicoSAT) (m : String),
    add_clause ps c = (ps1, some m) → m = "non-zero interger expected" := by
  intro c
  induction c with
  | nil =>
    intro ps ps1 m h
    simp only [add_clause] at h
    injection h with h1 h2
    exact Option.noConfusion h2
  | cons v rest ih =>
    intro ps ps1 m h
    simp only [add_clause] at h
    by_cases hv : v = 0
    · rw [if_pos hv] at h
      injection h with h1 h2
      injection h2 with h3
      exact h3.symm
    · rw [if_neg hv] at h
      exact ih _ _ _ h

theorem add_clause_zero : ∀ (c : List Int) (ps : PicoSAT), (0 : Int) ∈ c →
    ∃ ps1, add_clause ps c = (ps1, some "non-zero interger expected") := by
  intro c
  induction c with
  | nil =>
    intro ps h
    simp at h
  | cons v rest ih =>
    intro ps h
    simp only [add_clause]
    by_cases hv : v = 0
    · rw [if_pos hv]
      exact ⟨ps, rfl⟩
    · rw [if_neg hv]
      have h0 : (0 : Int) ∈ rest := by
        rcases List.mem_cons.1 h with h0 | h0
        · exact absurd h0.symm hv
        · exact h0
      exact ih _ h0

theorem add_clauses_zero : ∀ (cs : List (List Int)) (ps : PicoSAT),
    (∃ c ∈ cs, (0 : Int) ∈ c) →
    ∃ ps1, add_clauses ps cs = (ps1, some "non-zero interger expected") := by
  intro cs
  induction cs with
  | nil =>
    intro ps h
    obtain ⟨c, hc, _⟩ := h
    simp at hc
  | cons c rest ih =>
    intro ps h
    obtain ⟨d, hd, hd0⟩ := h
    simp only [add_clauses]
    rcases List.mem_cons.1 hd with rfl | hdrest
    · obtain ⟨ps1, h1⟩ := add_clause_zero d ps hd0
      rw [h1]
      exact ⟨ps1, rfl⟩
    · rcases hac : add_clause ps c with ⟨ps1, err⟩
      cases err with
      | some m =>
        have hm := add_clause_msg c ps ps1 m hac
        subst hm
        exact ⟨ps1, rfl⟩
      | none =>
        exact ih ps1 ⟨d, hdrest, hd0⟩

/-- The engine state built by `setup_picosat` right before clause ingestion:
verbosity applied, hint applied when `vars ≠ -1`, the propagation limit
installed exactly when `prop_limit ≠ 0`. -/
def preIngest (vars verbose : Int) (pl : Nat) : PicoSAT :=
  { maxVar := if vars = -1 then 0 else vars.toNat
    pending := []
    clauses := []
    propLimit := if pl = 0 then none else some pl
    verbosity := verbose
    lastSolution := none }

theorem setup_eq (cs : List (List Int)) (vars verbose : Int) (pl : Nat) :
    setup_picosat cs vars verbose pl =
      match add_clauses (preIngest vars verbose pl) cs with
      | (_, some msg) => (Except.error msg, [Ev.reset])
      | (ps4, none) => (Except.ok ps4, []) := by
  unfold setup_picosat picosat_minit picosat_adjust preIngest
  by_cases hv : vars = -1 <;> by_cases hpl : pl = 0 <;> simp [hv, hpl]

theorem setup_ok {cs : List (List Int)} {vars verbose : Int} {pl : Nat}
    {ps : PicoSAT} {evs : List Ev}
    (h : setup_picosat cs vars verbose pl = (Except.ok ps, evs)) :
    evs = [] ∧ ps.pending = [] ∧ ps.clauses = cs ∧
    ps.maxVar = varCount cs vars ∧
    ps.propLimit = (if pl = 0 then none else some pl) ∧
    ps.lastSolution = none ∧
    ∀ c ∈ cs, ∀ l ∈ c, l ≠ 0 := by
  rw [setup_eq] at h
  rcases hac : add_clauses (preIngest vars verbose pl) cs with ⟨ps4, err⟩
  rw [hac] at h
  cases err with
  | some m => exact Except.noConfusion (congrArg Prod.fst h)
  | none =>
    injection h with h1 h2
    injection h1 with h1
    subst h1
    subst h2
    obtain ⟨b1, b2, b3, b4, b5, b6, b7⟩ :=
      add_clauses_ok cs (preIngest vars verbose pl) _ rfl hac
    refine ⟨rfl, b1, by simpa using b2, ?_, ?_, ?_, b7⟩
    · rw [b3]
      rfl
    · rw [b4]
      rfl
    · rw [b6]
      rfl

theorem setup_err {cs : List (List Int)} {vars verbose : Int} {pl : Nat}
    (h : ∃ c ∈ cs, (0 : Int) ∈ c) :
    setup_picosat cs vars verbose pl =
      (Except.error "non-zero interger expected", [Ev.reset]) := by
  rw [setup_eq]
  obtain ⟨ps1, h1⟩ := add_clauses_zero cs (preIngest vars verbose pl) h
  rw [h1]

/-! ## The engine invocation -/

theorem mem_satisfying {ps : PicoSAT} {a : List Bool} (h : a ∈ satisfying ps) :
    a.length = ps.maxVar ∧ evalCNF a ps.clauses = true := by
  unfold satisfying at h
  obtain ⟨h1, h2⟩ := List.mem_filter.1 h
  exact ⟨(mem_allAssign _ a).1 h1, h2⟩

theorem satisfying_nodup (ps : PicoSAT) : (satisfying ps).Nodup :=
  (allAssign_nodup ps.maxVar).filter _

theorem sat_core_head {ps : PicoSAT} {a : List Bool} (b : Int)
    (hpl : ps.propLimit = none) (ha : (satisfying ps).head? = some a) :
    picosat_sat ps b = (SatRes.satisfiable, { ps with lastSolution := some a }) := by
  simp only [picosat_sat, hpl, ha]

theorem sat_core_nil {ps : PicoSAT} (b : Int)
    (hpl : ps.propLimit = none) (ha : satisfying ps = []) :
    picosat_sat ps b = (SatRes.unsatisfiable, { ps with lastSolution := none }) := by
  simp only [picosat_sat, hpl, ha, List.head?_nil]

theorem sat_unknown_of {ps : PicoSAT} {l : Nat} (b : Int)
    (hpl : ps.propLimit = some l) (hl : l < 2 ^ ps.maxVar) :
    picosat_sat ps b = (SatRes.unknown, ps) := by
  simp only [picosat_sat, hpl, if_pos hl]

theorem sat_sat_elim {ps ps' : PicoSAT} {b : Int}
    (h : picosat_sat ps b = (SatRes.satisfiable, ps')) :
    ∃ a, (satisfying ps).head? = some a ∧ a ∈ satisfying ps ∧
      ps' = { ps with lastSolution := some a } := by
  simp only [picosat_sat] at h
  split at h
  · split at h
    · injection h with h1 h2
      exact SatRes.noConfusion h1
    · split at h
      · rename_i a ha
        injection h with h1 h2
        exact ⟨a, ha, List.mem_of_mem_head? ha, h2.symm⟩
      · injection h with h1 h2
        exact SatRes.noConfusion h1
  · split at h
    · rename_i a ha
      injection h with h1 h2
      exact ⟨a, ha, List.mem_of_mem_head? ha, h2.symm⟩
    · injection h with h1 h2
      exact SatRes.noConfusion h1

theorem sat_unsat_elim {ps ps' : PicoSAT} {b : Int}
    (h : picosat_sat ps b = (SatRes.unsatisfiable, ps')) :
    satisfying ps = [] ∧ ps' = { ps with lastSolution := none } := by
  simp only [picosat_sat] at h
  split at h
  · split at h
    · injection h with h1 h2
      exact SatRes.noConfusion h1
    · split at h
      · injection h with h1 h2
        exact SatRes.noConfusion h1
      · rename_i ha
        injection h with h1 h2
        exact ⟨List.head?_eq_none_iff.1 ha, h2.symm⟩
  · split at h
    · injection h with h1 h2
      exact SatRes.noConfusion h1
    · rename_i ha
      injection h with h1 h2
      exact ⟨List.head?_eq_none_iff.1 ha, h2.symm⟩

theorem sat_unknown_elim {ps ps' : PicoSAT} {b : Int}
    (h : picosat_sat ps b = (SatRes.unknown, ps')) :
    ∃ l, ps.propLimit = some l ∧ l < 2 ^ ps.maxVar ∧ ps' = ps := by
  simp only [picosat_sat] at h
  split at h
  · rename_i l hl
    split at h
    · rename_i hlt
      injection h with h1 h2
      exact ⟨l, hl, hlt, h2.symm⟩
    · split at h <;> injection h with h1 h2 <;> exact SatRes.noConfusion h1
  · split at h <;> injection h with h1 h2 <;> exact SatRes.noConfusion h1

/-! ## Decoding solutions -/

/-- The sequence of signed integers `get_solution` materializes from the
total assignment `a` over `n` variables: position `k` holds `+(k+1)` when
variable `k+1` is true and `-(k+1)` when it is false. -/
def decodeA (n : Nat) (a : List Bool) : List Int :=
  (List.range n).map
    (fun k => if a.getD k false then ((k : Int) + 1) else -((k : Int) + 1))

theorem get_solution_eq {ps : PicoSAT} {a : List Bool}
    (h : ps.lastSolution = some a) :
    get_solution ps = decodeA ps.maxVar a := by
  unfold get_solution decodeA picosat_variables picosat_deref
  rw [h]
  apply List.map_congr_left
  intro k _
  simp only [Nat.add_sub_cancel]
  by_cases hg : a.getD k false <;> simp [hg]

theorem decodeA_length (n : Nat) (a : List Bool) : (decodeA n a).length = n := by
  simp [decodeA]

theorem decodeA_getD {n : Nat} (a : List Bool) {k : Nat} (hk : k < n) :
    (decodeA n a).getD k 0 =
      if a.getD k false then ((k : Int) + 1) else -((k : Int) + 1) := by
  have hk' : k < (decodeA n a).length := by
    rw [decodeA_length]
    exact hk
  rw [List.getD_eq_getElem _ _ hk']
  simp [decodeA]

theorem decodeA_inj {n : Nat} {a b : List Bool} (ha : a.length = n)
    (hb : b.length = n) (h : decodeA n a = decodeA n b) : a = b := by
  apply getD_ext ha hb
  intro k hk
  have h' : (decodeA n a).getD k 0 = (decodeA n b).getD k 0 := by rw [h]
  rw [decodeA_getD a hk, decodeA_getD b hk] at h'
  by_cases hga : a.getD k false = true <;> by_cases hgb : b.getD k false = true
  · rw [hga, hgb]
  · rw [if_pos hga, if_neg hgb] at h'
    exact absurd h' (by omega)
  · rw [if_neg hga, if_pos hgb] at h'
    exact absurd h' (by omega)
  · rw [Bool.not_eq_true] at hga hgb
    rw [hga, hgb]

/-! ## Substitution semantics for decoded assignments -/

/-- The truth value the decoded assignment `xs` gives to variable `i`:
`xs` records `+i` exactly when variable `i` is true. -/
def assignTrue (xs : List Int) (i : Nat) : Bool :=
  decide ((i : Int) ∈ xs)

/-- Substituting `xs` into the literal `l`: the variable's truth value,
negated for a negative literal. -/
def litHolds (xs : List Int) (l : Int) : Bool :=
  if 0 < l then assignTrue xs l.natAbs else !(assignTrue xs l.natAbs)

/-- Substituting `xs` into a clause: the disjunction of its literals. -/
def clauseHolds (xs : List Int) (c : List Int) : Bool :=
  c.any (litHolds xs)

theorem mem_decodeA {n : Nat} {a : List Bool} {v : Int} :
    v ∈ decodeA n a ↔
      ∃ k, k < n ∧
        v = (if a.getD k false then ((k : Int) + 1) else -((k : Int) + 1)) := by
  simp only [decodeA, List.mem_map, List.mem_range]
  constructor
  · rintro ⟨k, hk, rfl⟩
    exact ⟨k, hk, rfl⟩
  · rintro ⟨k, hk, rfl⟩
    exact ⟨k, hk, rfl⟩

theorem assignTrue_decodeA {n i : Nat} (a : List Bool) (h1 : 1 ≤ i)
    (h2 : i ≤ n) : assignTrue (decodeA n a) i = a.getD (i - 1) false := by
  unfold assignTrue
  by_cases hg : a.getD (i - 1) false
  · rw [hg]
    apply decide_eq_true
    refine mem_decodeA.2 ⟨i - 1, by omega, ?_⟩
    rw [if_pos hg]
    omega
  · simp only [hg]
    apply decide_eq_false
    intro hmem
    obtain ⟨k, hk, hv⟩ := mem_decodeA.1 hmem
    by_cases hgk : a.getD k false
    · rw [if_pos hgk] at hv
      have : k = i - 1 := by omega
      subst this
      exact hg hgk
    · rw [if_neg hgk] at hv
      omega

theorem litHolds_decodeA {n : Nat} {l : Int} (a : List Bool) (hl : l ≠ 0)
    (hn : l.natAbs ≤ n) : litHolds (decodeA n a) l = evalLit a l := by
  have h1 : 1 ≤ l.natAbs := by omega
  unfold litHolds evalLit
  rw [assignTrue_decodeA a h1 hn]

theorem clauseHolds_decodeA {n : Nat} (a : List Bool) :
    ∀ (c : List Int), (∀ l ∈ c, l ≠ 0 ∧ l.natAbs ≤ n) →
    clauseHolds (decodeA n a) c = evalClause a c := by
  intro c
  induction c with
  | nil => intro _; rfl
  | cons l rest ih =>
    intro h
    simp only [clauseHolds, evalClause, List.any_cons] at ih ⊢
    rw [litHolds_decodeA a (h l (List.mem_cons_self l rest)).1
        (h l (List.mem_cons_self l rest)).2,
      ih (fun x hx => h x (List.mem_cons_of_mem l hx))]

/-! ## The blocking clause -/

/-- The clause `blocksol` feeds into the engine: for each variable `i` in
`1..N` the literal `mem[i] < 0 ? i : -i`, i.e. the literal of sign opposite
to the variable's current assignment. -/
def blockClause (ps : PicoSAT) : List Int :=
  (List.range ps.maxVar).map
    (fun k => if memVal ps (k + 1) < 0 then ((k : Int) + 1) else -((k : Int) + 1))

theorem blockClause_lits {ps : PicoSAT} :
    ∀ l ∈ blockClause ps, l ≠ 0 ∧ l.natAbs ≤ ps.maxVar := by
  intro l hl
  obtain ⟨k, hk, rfl⟩ := List.mem_map.1 hl
  have hk' : k < ps.maxVar := List.mem_range.1 hk
  by_cases h : memVal ps (k + 1) < 0 <;> simp only [h, if_pos, if_neg, if_true, if_false] <;>
    constructor <;> omega

theorem foldl_picosat_add : ∀ (L : List Int) (ps : PicoSAT), (∀ l ∈ L, l ≠ 0) →
    L.foldl picosat_add ps =
      { ps with
        pending := ps.pending ++ L
        maxVar := clauseMax L ps.maxVar } := by
  intro L
  induction L with
  | nil =>
    intro ps _
    simp [clauseMax]
  | cons v rest ih =>
    intro ps h
    simp only [List.foldl_cons]
    rw [picosat_add_ne ps (h v (List.mem_cons_self v rest))]
    rw [ih _ (fun l hl => h l (List.mem_cons_of_mem v hl))]
    simp [List.append_assoc, clauseMax, List.foldl_cons]

theorem blocksol_ps (ps : PicoSAT) (mem : Option (List Int))
    (hp : ps.pending = []) :
    (blocksol ps mem).1 =
      { ps with
        pending := []
        clauses := ps.clauses ++ [blockClause ps] } := by
  have hlits := @blockClause_lits ps
  have hfold : (List.range ps.maxVar).foldl
      (fun acc k => picosat_add acc
        (if memVal ps (k + 1) < 0 then ((k : Int) + 1) else -((k : Int) + 1))) ps
      = (blockClause ps).foldl picosat_add ps := by
    rw [blockClause, List.foldl_map]
  simp only [blocksol, picosat_variables]
  rw [hfold, foldl_picosat_add (blockClause ps) ps (fun l hl => (hlits l hl).1)]
  simp [picosat_add, hp,
    clauseMax_eq_of_le (blockClause ps) ps.maxVar (fun l hl => (hlits l hl).2)]

theorem blocksol_evs_none (ps : PicoSAT) :
    (blocksol ps none).2.2 = [Ev.allocMem] := rfl

theorem blocksol_evs_some (ps : PicoSAT) (m : List Int) :
    (blocksol ps (some m)).2.2 = [] := rfl

theorem memVal_eq {ps : PicoSAT} {a : List Bool} (h : ps.lastSolution = some a)
    (k : Nat) : memVal ps (k + 1) = if a.getD k false then 1 else -1 := by
  unfold memVal picosat_deref
  rw [h]
  simp only [Nat.add_sub_cancel]
  generalize a.getD k false = x
  cases x <;> norm_num

theorem blockClause_eq {ps : PicoSAT} {a : List Bool}
    (h : ps.lastSolution = some a) :
    blockClause ps = (List.range ps.maxVar).map
      (fun k => if a.getD k false then -((k : Int) + 1) else ((k : Int) + 1)) := by
  unfold blockClause
  apply List.map_congr_left
  intro k _
  rw [memVal_eq h k]
  generalize a.getD k false = x
  cases x <;> norm_num

theorem evalLit_opp (a b : List Bool) (k : Nat) :
    evalLit b (if a.getD k false then -((k : Int) + 1) else ((k : Int) + 1))
      = (b.getD k false != a.getD k false) := by
  by_cases hg : a.getD k false = true
  · rw [if_pos hg, hg]
    unfold evalLit
    rw [if_neg (show ¬((0 : Int) < -((k : Int) + 1)) from by omega)]
    rw [show (-((k : Int) + 1)).natAbs - 1 = k from by omega]
    generalize b.getD k false = y
    cases y <;> rfl
  · rw [if_neg hg]
    have hg' : a.getD k false = false := by
      simpa using hg
    rw [hg']
    unfold evalLit
    rw [if_pos (show (0 : Int) < (k : Int) + 1 from by omega)]
    rw [show (((k : Int) + 1)).natAbs - 1 = k from by omega]
    generalize b.getD k false = y
    cases y <;> rfl

theorem evalClause_blockClause {ps : PicoSAT} {a b : List Bool}
    (h : ps.lastSolution = some a) (ha : a.length = ps.maxVar)
    (hb : b.length = ps.maxVar) :
    evalClause b (blockClause ps) = true ↔ b ≠ a := by
  rw [blockClause_eq h]
  unfold evalClause
  rw [List.any_eq_true]
  constructor
  · rintro ⟨x, hx, hlit⟩ rfl
    obtain ⟨k, hk, rfl⟩ := List.mem_map.1 hx
    rw [evalLit_opp _ _ k] at hlit
    simp at hlit
  · intro hne
    by_contra hall
    push_neg at hall
    apply hne
    apply getD_ext hb ha
    intro k hkn
    have hk := hall _ (List.mem_map.2 ⟨k, List.mem_range.2 hkn, rfl⟩)
    rw [evalLit_opp a b k] at hk
    simpa using hk

theorem evalClause_blockClause_self {ps : PicoSAT} {a : List Bool}
    (h : ps.lastSolution = some a) (ha : a.length = ps.maxVar) :
    evalClause a (blockClause ps) = false := by
  have := evalClause_blockClause h ha ha
  simp only [ne_eq, not_true_eq_false, iff_false, Bool.not_eq_true] at this
  simpa using this

theorem satisfying_append_one (ps : PicoSAT) (c : List Int) :
    satisfying
      { ps with
        pending := []
        clauses := ps.clauses ++ [c] }
      = (satisfying ps).filter (fun b => evalClause b c) := by
  unfold satisfying
  rw [List.filter_filter]
  apply List.filter_congr
  intro b _
  show evalCNF b (ps.clauses ++ [c]) = (evalClause b c && evalCNF b ps.clauses)
  simp [evalCNF, List.all_append, Bool.and_comm]

/-! ## The enumeration invariant -/

/-- Invariant of the enumeration cursor: no unterminated clause, no
propagation limit installed, fixed variable range `N`, and `s` is the list of
satisfying assignments of the engine's current clause set, in the engine's
search order. -/
def EnumInv (N : Nat) (it : soliterobject) (s : List (List Bool)) : Prop :=
  it.picosat.pending = [] ∧ it.picosat.propLimit = none ∧
  it.picosat.maxVar = N ∧ satisfying it.picosat = s

theorem enum_next_cons {N : Nat} {it : soliterobject} {a : List Bool}
    {rest : List (List Bool)} (h : EnumInv N it (a :: rest)) :
    (soliter_next it).1 = some (decodeA N a) ∧
    EnumInv N (soliter_next it).2.1 rest ∧
    (soliter_next it).2.1.mem = it.mem := by
  obtain ⟨hp, hpl, hN, hs⟩ := h
  have hhead : (satisfying it.picosat).head? = some a := by
    rw [hs]
    rfl
  have hmem : a ∈ satisfying it.picosat := List.mem_of_mem_head? hhead
  obtain ⟨hlen, hcnf⟩ := mem_satisfying hmem
  have hsat := sat_core_head (-1) hpl hhead
  have hnd := satisfying_nodup it.picosat
  rw [hs] at hnd
  have hna : a ∉ rest := (List.nodup_cons.1 hnd).1
  have hnext : soliter_next it =
      (some (get_solution { it.picosat with lastSolution := some a }),
        { picosat :=
            (blocksol { it.picosat with lastSolution := some a } it.mem).1,
          mem := it.mem },
        [Ev.gilRelease, Ev.satCall, Ev.gilAcquire] ++
          (blocksol { it.picosat with lastSolution := some a } it.mem).2.2) := by
    unfold soliter_next
    rw [hsat]
  have hlen1 : a.length = ({ it.picosat with lastSolution := some a } : PicoSAT).maxVar := hlen
  refine ⟨?_, ?_, ?_⟩
  · rw [hnext]
    rw [get_solution_eq
      (show ({ it.picosat with lastSolution := some a } : PicoSAT).lastSolution
        = some a from rfl)]
    rw [show ({ it.picosat with lastSolution := some a } : PicoSAT).maxVar = N from hN]
  · rw [hnext]
    rw [blocksol_ps { it.picosat with lastSolution := some a } it.mem
      (show ({ it.picosat with lastSolution := some a } : PicoSAT).pending = [] from hp)]
    refine ⟨rfl, hpl, hN, ?_⟩
    rw [satisfying_append_one { it.picosat with lastSolution := some a }
      (blockClause { it.picosat with lastSolution := some a })]
    have hsps1 : satisfying ({ it.picosat with lastSolution := some a } : PicoSAT)
        = a :: rest := hs
    rw [hsps1, List.filter_cons]
    rw [evalClause_blockClause_self rfl hlen1]
    simp only [Bool.false_eq_true, if_false]
    rw [List.filter_eq_self]
    intro b hb
    have hbmem : b ∈ satisfying it.picosat := by
      rw [hs]
      exact List.mem_cons_of_mem a hb
    have hblen : b.length = ({ it.picosat with lastSolution := some a } : PicoSAT).maxVar :=
      (mem_satisfying hbmem).1
    have hbne : b ≠ a := fun hba => hna (hba ▸ hb)
    exact (evalClause_blockClause rfl hlen1 hblen).2 hbne
  · rw [hnext]

theorem enum_next_nil {N : Nat} {it : soliterobject} (h : EnumInv N it []) :
    soliter_next it =
      (none, { it with picosat := { it.picosat with lastSolution := none } },
        [Ev.gilRelease, Ev.satCall, Ev.gilAcquire]) ∧
    EnumInv N { it with picosat := { it.picosat with lastSolution := none } } [] := by
  obtain ⟨hp, hpl, hN, hs⟩ := h
  have hsat := sat_core_nil (-1) hpl hs
  constructor
  · unfold soliter_next
    rw [hsat]
  · exact ⟨hp, hpl, hN, hs⟩

theorem enum_run {N : Nat} : ∀ (fuel : Nat) (it : soliterobject)
    (s : List (List Bool)), EnumInv N it s →
    (iterRun it fuel).1 = (s.take fuel).map (decodeA N) ∧
    EnumInv N (iterRun it fuel).2 (s.drop fuel) := by
  intro fuel
  induction fuel with
  | zero =>
    intro it s h
    exact ⟨by simp [iterRun], by simpa [iterRun] using h⟩
  | succ fuel ih =>
    intro it s h
    cases s with
    | nil =>
      obtain ⟨h1, h2⟩ := enum_next_nil h
      have hstep : iterRun it (fuel + 1) =
          ([], { it with picosat := { it.picosat with lastSolution := none } }) := by
        unfold iterRun
        rw [h1]
      rw [hstep]
      exact ⟨by simp, by simpa using h2⟩
    | cons a rest =>
      obtain ⟨h1, h2, _⟩ := enum_next_cons h
      rcases hnext : soliter_next it with ⟨res, it1, evs⟩
      rw [hnext] at h1 h2
      dsimp only at h1 h2
      subst h1
      obtain ⟨ihy, ihinv⟩ := ih it1 rest h2
      rcases hrec : iterRun it1 fuel with ⟨ys, it2⟩
      rw [hrec] at ihy ihinv
      dsimp only at ihy ihinv
      have hstep : iterRun it (fuel + 1) = (decodeA N a :: ys, it2) := by
        unfold iterRun
        rw [hnext]
        dsimp only
        rw [hrec]
      rw [hstep]
      constructor
      · rw [List.take_succ_cons, List.map_cons, ← ihy]
      · simpa [List.drop_succ_cons] using ihinv

/-! ## Step equations for the iterator -/

theorem soliter_next_sat (it : soliterobject) {ps1 : PicoSAT}
    (h : picosat_sat it.picosat (-1) = (SatRes.satisfiable, ps1)) :
    soliter_next it =
      (some (get_solution ps1),
        { picosat := (blocksol ps1 it.mem).1, mem := it.mem },
        [Ev.gilRelease, Ev.satCall, Ev.gilAcquire] ++ (blocksol ps1 it.mem).2.2) := by
  unfold soliter_next
  rw [h]

theorem soliter_next_unsat (it : soliterobject) {ps1 : PicoSAT}
    (h : picosat_sat it.picosat (-1) = (SatRes.unsatisfiable, ps1)) :
    soliter_next it =
      (none, { it with picosat := ps1 },
        [Ev.gilRelease, Ev.satCall, Ev.gilAcquire]) := by
  unfold soliter_next
  rw [h]

theorem soliter_next_unknown (it : soliterobject) {ps1 : PicoSAT}
    (h : picosat_sat it.picosat (-1) = (SatRes.unknown, ps1)) :
    soliter_next it =
      (none, { it with picosat := ps1 },
        [Ev.gilRelease, Ev.satCall, Ev.gilAcquire]) := by
  unfold soliter_next
  rw [h]

theorem iterRun_succ_some {it : soliterobject} {sol : List Int}
    {it1 : soliterobject} {evs : List Ev} (fuel : Nat)
    (h : soliter_next it = (some sol, it1, evs)) :
    iterRun it (fuel + 1) = (sol :: (iterRun it1 fuel).1, (iterRun it1 fuel).2) := by
  rcases h2 : iterRun it1 fuel with ⟨ys, it2⟩
  conv_lhs => unfold iterRun
  rw [h]
  dsimp only
  rw [h2]

theorem iterRun_succ_none {it it1 : soliterobject} {evs : List Ev} (fuel : Nat)
    (h : soliter_next it = (none, it1, evs)) :
    iterRun it (fuel + 1) = ([], it1) := by
  unfold iterRun
  rw [h]

/-! ## Soundness of yielded assignments -/

/-- Invariant carried by the cursor for soundness: no unterminated clause,
every original clause still among the engine's clauses, and every original
literal non-zero and within the tracked variable range. -/
def SoundInv (cs : List (List Int)) (it : soliterobject) : Prop :=
  it.picosat.pending = [] ∧
  (∀ c ∈ cs, c ∈ it.picosat.clauses) ∧
  (∀ c ∈ cs, ∀ l ∈ c, l ≠ 0 ∧ l.natAbs ≤ it.picosat.maxVar)

theorem sound_next {cs : List (List Int)} {it : soliterobject} {xs : List Int}
    (hinv : SoundInv cs it) (h : (soliter_next it).1 = some xs) :
    (∀ c ∈ cs, clauseHolds xs c = true) ∧ SoundInv cs (soliter_next it).2.1 := by
  obtain ⟨hp, hsub, hlits⟩ := hinv
  rcases hsat : picosat_sat it.picosat (-1) with ⟨res, ps1⟩
  cases res with
  | unsatisfiable =>
    rw [soliter_next_unsat it hsat] at h
    exact Option.noConfusion h
  | unknown =>
    rw [soliter_next_unknown it hsat] at h
    exact Option.noConfusion h
  | satisfiable =>
    obtain ⟨a, hhead, hamem, hps1⟩ := sat_sat_elim hsat
    obtain ⟨halen, hacnf⟩ := mem_satisfying hamem
    subst hps1
    rw [soliter_next_sat it hsat] at h ⊢
    dsimp only at h ⊢
    injection h with h
    subst h
    have hacl : ∀ c ∈ it.picosat.clauses, evalClause a c = true := by
      simpa [evalCNF, List.all_eq_true] using hacnf
    constructor
    · intro c hc
      rw [get_solution_eq
        (show ({ it.picosat with lastSolution := some a } : PicoSAT).lastSolution
          = some a from rfl)]
      rw [clauseHolds_decodeA a c (fun l hl => hlits c hc l hl)]
      exact hacl c (hsub c hc)
    · rw [blocksol_ps { it.picosat with lastSolution := some a } it.mem
        (show ({ it.picosat with lastSolution := some a } : PicoSAT).pending = []
          from hp)]
      refine ⟨rfl, ?_, ?_⟩
      · intro c hc
        exact List.mem_append_left _ (hsub c hc)
      · intro c hc l hl
        exact hlits c hc l hl

theorem sound_run {cs : List (List Int)} : ∀ (fuel : Nat) (it : soliterobject),
    SoundInv cs it →
    ∀ xs ∈ (iterRun it fuel).1, ∀ c ∈ cs, clauseHolds xs c = true := by
  intro fuel
  induction fuel with
  | zero =>
    intro it _ xs hxs
    simp [iterRun] at hxs
  | succ fuel ih =>
    intro it hinv xs hxs
    rcases hnext : soliter_next it with ⟨res, it1, evs⟩
    cases res with
    | none =>
      rw [iterRun_succ_none fuel hnext] at hxs
      simp at hxs
    | some sol =>
      obtain ⟨hyield, hinv'⟩ := sound_next hinv (by rw [hnext])
      rw [hnext] at hinv'
      dsimp only at hinv'
      rw [iterRun_succ_some fuel hnext] at hxs
      rcases List.mem_cons.1 hxs with rfl | hxs'
      · exact hyield
      · exact ih it1 hinv' xs hxs'

/-! ## Setup of the iterator -/

theorem itersolve_ok {cs : List (List Int)} {vars verbose : Int} {pl : Nat}
    {it : soliterobject} {evs : List Ev}
    (h : itersolve cs vars verbose pl = (Except.ok it, evs)) :
    it.mem = none ∧ it.picosat.pending = [] ∧ it.picosat.clauses = cs ∧
    it.picosat.maxVar = varCount cs vars ∧
    it.picosat.propLimit = (if pl = 0 then none else some pl) ∧
    it.picosat.lastSolution = none ∧ evs = [] ∧
    ∀ c ∈ cs, ∀ l ∈ c, l ≠ 0 := by
  unfold itersolve at h
  rcases hsetup : setup_picosat cs vars verbose pl with ⟨r, evs0⟩
  rw [hsetup] at h
  cases r with
  | error msg => exact Except.noConfusion (congrArg Prod.fst h)
  | ok ps =>
    injection h with h1 h2
    injection h1 with h1
    subst h1
    subst h2
    obtain ⟨e1, e2, e3, e4, e5, e6, e7⟩ := setup_ok hsetup
    exact ⟨rfl, e2, e3, e4, e5, e6, e1, e7⟩

/-! ## Independence of the run from the scratch-buffer pointer -/

theorem blocksol_fst (ps : PicoSAT) (m m' : Option (List Int)) :
    (blocksol ps m).1 = (blocksol ps m').1 := rfl

theorem iterRun_mem_indep : ∀ (fuel : Nat) (ps : PicoSAT)
    (m m' : Option (List Int)),
    (iterRun { picosat := ps, mem := m } fuel).1
      = (iterRun { picosat := ps, mem := m' } fuel).1 := by
  intro fuel
  induction fuel with
  | zero =>
    intro ps m m'
    rfl
  | succ fuel ih =>
    intro ps m m'
    rcases hsat : picosat_sat ps (-1) with ⟨res, ps1⟩
    cases res with
    | satisfiable =>
      have em := soliter_next_sat ⟨ps, m⟩ hsat
      have em' := soliter_next_sat ⟨ps, m'⟩ hsat
      rw [iterRun_succ_some fuel em, iterRun_succ_some fuel em']
      dsimp only
      congr 1
      exact ih (blocksol ps1 m).1 m m'
    | unsatisfiable =>
      rw [iterRun_succ_none fuel (soliter_next_unsat ⟨ps, m⟩ hsat),
        iterRun_succ_none fuel (soliter_next_unsat ⟨ps, m'⟩ hsat)]
    | unknown =>
      rw [iterRun_succ_none fuel (soliter_next_unknown ⟨ps, m⟩ hsat),
        iterRun_succ_none fuel (soliter_next_unknown ⟨ps, m'⟩ hsat)]

/-- The number of satisfying total assignments over the variables the engine
tracks for the clause set `cs` and hint `vars`. -/
def numSolutions (cs : List (List Int)) (vars : Int) : Nat :=
  ((allAssign (varCount cs vars)).filter (fun a => evalCNF a cs)).length

/-! ## Case equations for solve, and setup success on valid input -/

theorem solve_err {cs : List (List Int)} {vars verbose : Int} {pl : Nat}
    {msg : String} {evs : List Ev}
    (h : setup_picosat cs vars verbose pl = (Except.error msg, evs)) :
    solve cs vars verbose pl = (SolveOutcome.error msg, evs) := by
  unfold solve
  rw [h]

theorem solve_sat {cs : List (List Int)} {vars verbose : Int} {pl : Nat}
    {ps ps1 : PicoSAT} {evs0 : List Ev}
    (hsetup : setup_picosat cs vars verbose pl = (Except.ok ps, evs0))
    (hsat : picosat_sat ps (-1) = (SatRes.satisfiable, ps1)) :
    solve cs vars verbose pl =
      (SolveOutcome.solution (get_solution ps1),
        evs0 ++ [Ev.gilRelease, Ev.satCall, Ev.gilAcquire] ++ [Ev.reset]) := by
  unfold solve
  rw [hsetup]
  dsimp only
  rw [hsat]

theorem solve_unsat {cs : List (List Int)} {vars verbose : Int} {pl : Nat}
    {ps ps1 : PicoSAT} {evs0 : List Ev}
    (hsetup : setup_picosat cs vars verbose pl = (Except.ok ps, evs0))
    (hsat : picosat_sat ps (-1) = (SatRes.unsatisfiable, ps1)) :
    solve cs vars verbose pl =
      (SolveOutcome.unsat,
        evs0 ++ [Ev.gilRelease, Ev.satCall, Ev.gilAcquire] ++ [Ev.reset]) := by
  unfold solve
  rw [hsetup]
  dsimp only
  rw [hsat]

theorem solve_unknown {cs : List (List Int)} {vars verbose : Int} {pl : Nat}
    {ps ps1 : PicoSAT} {evs0 : List Ev}
    (hsetup : setup_picosat cs vars verbose pl = (Except.ok ps, evs0))
    (hsat : picosat_sat ps (-1) = (SatRes.unknown, ps1)) :
    solve cs vars verbose pl =
      (SolveOutcome.unknown,
        evs0 ++ [Ev.gilRelease, Ev.satCall, Ev.gilAcquire] ++ [Ev.reset]) := by
  unfold solve
  rw [hsetup]
  dsimp only
  rw [hsat]

theorem add_clause_no_zero : ∀ (c : List Int) (ps : PicoSAT),
    (∀ l ∈ c, l ≠ 0) → ∃ ps', add_clause ps c = (ps', none) := by
  intro c
  induction c with
  | nil =>
    intro ps _
    exact ⟨picosat_add ps 0, rfl⟩
  | cons v rest ih =>
    intro ps h
    simp only [add_clause]
    rw [if_neg (h v (List.mem_cons_self v rest))]
    exact ih _ (fun l hl => h l (List.mem_cons_of_mem v hl))

theorem add_clauses_no_zero : ∀ (cs : List (List Int)) (ps : PicoSAT),
    (∀ c ∈ cs, ∀ l ∈ c, l ≠ 0) → ∃ ps', add_clauses ps cs = (ps', none) := by
  intro cs
  induction cs with
  | nil =>
    intro ps _
    exact ⟨ps, rfl⟩
  | cons c rest ih =>
    intro ps h
    obtain ⟨ps1, h1⟩ := add_clause_no_zero c ps (h c (List.mem_cons_self c rest))
    simp only [add_clauses]
    rw [h1]
    exact ih ps1 (fun d hd => h d (List.mem_cons_of_mem c hd))

theorem setup_ok_of_valid {cs : List (List Int)} {vars verbose : Int} {pl : Nat}
    (hval : ∀ c ∈ cs, ∀ l ∈ c, l ≠ 0) :
    ∃ ps, setup_picosat cs vars verbose pl = (Except.ok ps, []) := by
  rw [setup_eq]
  obtain ⟨ps1, h1⟩ := add_clauses_no_zero cs (preIngest vars verbose pl) hval
  rw [h1]
  exact ⟨ps1, rfl⟩

theorem setup_err_evs {cs : List (List Int)} {vars verbose : Int} {pl : Nat}
    {msg : String} {evs : List Ev}
    (h : setup_picosat cs vars verbose pl = (Except.error msg, evs)) :
    evs = [Ev.reset] := by
  rw [setup_eq] at h
  rcases hac : add_clauses (preIngest vars verbose pl) cs with ⟨ps4, err⟩
  rw [hac] at h
  cases err with
  | none => exact Except.noConfusion (congrArg Prod.fst h)
  | some m => exact (congrArg Prod.snd h).symm

theorem setup_evs (cs : List (List Int)) (vars verbose : Int) (pl : Nat) :
    (setup_picosat cs vars verbose pl).2 = [] ∨
    (setup_picosat cs vars verbose pl).2 = [Ev.reset] := by
  rw [setup_eq]
  rcases add_clauses (preIngest vars verbose pl) cs with ⟨ps4, err⟩
  cases err with
  | some m => exact Or.inr rfl
  | none => exact Or.inl rfl

/-! ## Claim theorems -/

/-- C1: every assignment returned by `solve`, and every assignment yielded by
the enumeration iterator, when substituted into every input clause, makes
every clause true under standard disjunction/negation semantics — under the
engine contract that a SATISFIABLE invocation exposes values satisfying all
added clauses. -/
theorem pycosat_C1 (cs : List (List Int)) (vars verbose : Int) (pl : Nat) :
    (∀ xs evs, solve cs vars verbose pl = (SolveOutcome.solution xs, evs) →
      ∀ c ∈ cs, clauseHolds xs c = true) ∧
    (∀ it evs, itersolve cs vars verbose pl = (Except.ok it, evs) →
      ∀ (fuel : Nat), ∀ xs ∈ (iterRun it fuel).1,
        ∀ c ∈ cs, clauseHolds xs c = true) := by
  constructor
  · intro xs evs h c hc
    rcases hsetup : setup_picosat cs vars verbose pl with ⟨r, evs0⟩
    cases r with
    | error msg =>
      rw [solve_err hsetup] at h
      exact SolveOutcome.noConfusion (congrArg Prod.fst h)
    | ok ps =>
      obtain ⟨he, hpend, hcl, hmax, hplim, hlast, hval⟩ := setup_ok hsetup
      rcases hsat : picosat_sat ps (-1) with ⟨res, ps1⟩
      cases res with
      | unsatisfiable =>
        rw [solve_unsat hsetup hsat] at h
        exact SolveOutcome.noConfusion (congrArg Prod.fst h)
      | unknown =>
        rw [solve_unknown hsetup hsat] at h
        exact SolveOutcome.noConfusion (congrArg Prod.fst h)
      | satisfiable =>
        rw [solve_sat hsetup hsat] at h
        injection h with h1 h2
        injection h1 with h1
        subst h1
        obtain ⟨a, hhead, hamem, hps1⟩ := sat_sat_elim hsat
        subst hps1
        obtain ⟨halen, hacnf⟩ := mem_satisfying hamem
        rw [get_solution_eq
          (show ({ ps with lastSolution := some a } : PicoSAT).lastSolution
            = some a from rfl)]
        have hlb : ∀ l ∈ c, l ≠ 0 ∧
            l.natAbs ≤ ({ ps with lastSolution := some a } : PicoSAT).maxVar :=
          fun l hl => ⟨hval c hc l hl, by
            show l.natAbs ≤ ps.maxVar
            rw [hmax]
            exact natAbs_le_cnfMax cs _ c hc l hl⟩
        rw [clauseHolds_decodeA a c hlb]
        have hacl : ∀ d ∈ ps.clauses, evalClause a d = true := by
          simpa [evalCNF, List.all_eq_true] using hacnf
        exact hacl c (by rw [hcl]; exact hc)
  · intro it evs h fuel xs hxs c hc
    obtain ⟨hmem, hpend, hcl, hmax, hplim, hlast, hevs, hval⟩ := itersolve_ok h
    have hinv : SoundInv cs it := by
      refine ⟨hpend, ?_, ?_⟩
      · intro d hd
        rw [hcl]
        exact hd
      · intro d hd l hl
        refine ⟨hval d hd l hl, ?_⟩
        rw [hmax]
        exact natAbs_le_cnfMax cs _ d hd l hl
    exact sound_run fuel it hinv xs hxs c hc

theorem pycosat_C1_witness :
    clauseHolds [1] [1] = true ∧ clauseHolds [-1, 2] [2] = true := by
  constructor
  · exact (pycosat_C1 [[1]] (-1) 0 0).1 [1]
      [Ev.gilRelease, Ev.satCall, Ev.gilAcquire, Ev.reset] (by decide)
      [1] (by decide)
  · exact (pycosat_C1 [[2]] (-1) 0 0).2 ⟨⟨2, [], [[2]], none, 0, none⟩, none⟩
      [] (by rfl) 1 [-1, 2] (by decide) [2] (by decide)

/-- C2: over a clause set with exactly `K` satisfying total assignments over
the variables the engine tracks, the enumeration (run with enough advances
and no propagation limit) yields exactly `K` pairwise-distinct assignments,
and advancing past exhaustion, repeatedly, yields nothing. -/
theorem pycosat_C2 {cs : List (List Int)} {vars verbose : Int}
    {it : soliterobject} {evs : List Ev} {K fuel : Nat}
    (hset : itersolve cs vars verbose 0 = (Except.ok it, evs))
    (hK : numSolutions cs vars = K) (hfuel : K ≤ fuel) :
    (iterRun it fuel).1.length = K ∧
    (iterRun it fuel).1.Nodup ∧
    ∀ m, (iterRun (iterRun it fuel).2 m).1 = [] := by
  obtain ⟨hmem, hpend, hcl, hmax, hplim, hlast, hevs, hval⟩ := itersolve_ok hset
  have hinv : EnumInv (varCount cs vars) it (satisfying it.picosat) :=
    ⟨hpend, by simpa using hplim, hmax, rfl⟩
  have hlen_s : (satisfying it.picosat).length = K := by
    rw [← hK]
    unfold satisfying numSolutions
    rw [hmax, hcl]
  obtain ⟨hy, hinv'⟩ := enum_run fuel it (satisfying it.picosat) hinv
  have htake : (satisfying it.picosat).take fuel = satisfying it.picosat :=
    List.take_of_length_le (by omega)
  have hdrop : (satisfying it.picosat).drop fuel = [] :=
    List.drop_eq_nil_of_le (by omega)
  refine ⟨?_, ?_, ?_⟩
  · rw [hy, htake, List.length_map, hlen_s]
  · rw [hy, htake]
    refine List.Nodup.map_on ?_ (satisfying_nodup it.picosat)
    intro x hx y hyy hxy
    exact decodeA_inj ((mem_satisfying hx).1.trans hmax)
      ((mem_satisfying hyy).1.trans hmax) hxy
  · intro m
    rw [hdrop] at hinv'
    rw [(enum_run m _ [] hinv').1]
    simp

theorem pycosat_C2_witness :
    (iterRun (⟨⟨2, [], [[1, 2]], none, 0, none⟩, none⟩ : soliterobject) 3).1.length
        = 3 ∧
    (iterRun (⟨⟨2, [], [[1, 2]], none, 0, none⟩, none⟩ : soliterobject) 3).1.Nodup ∧
    (iterRun
      (iterRun (⟨⟨2, [], [[1, 2]], none, 0, none⟩, none⟩ : soliterobject) 3).2
      1).1 = [] := by
  obtain ⟨h1, h2, h3⟩ :=
    @pycosat_C2 [[1, 2]] (-1) 0 ⟨⟨2, [], [[1, 2]], none, 0, none⟩, none⟩ [] 3 3
      (by rfl) (by decide) (by decide)
  exact ⟨h1, h2, h3 1⟩

/-- C3: after a SATISFIABLE invocation, `blocksol` adds to the engine exactly
one clause, holding for each variable `i` in `1..N` the literal of sign
opposite to `i`'s current value, duly terminated (it lands in `clauses`, with
no literal left pending); that clause is false under exactly the current
total assignment and true under every other total assignment over the same
`N` variables. -/
theorem pycosat_C3 {ps0 ps : PicoSAT} {b : Int}
    (hsat : picosat_sat ps0 b = (SatRes.satisfiable, ps))
    (hpend : ps0.pending = []) (mem : Option (List Int)) :
    ∃ a : List Bool, ps.lastSolution = some a ∧
      a.length = picosat_variables ps ∧
      (blocksol ps mem).1.clauses = ps.clauses ++
        [(List.range (picosat_variables ps)).map
          (fun k => if 0 < picosat_deref ps (k + 1) then -((k : Int) + 1)
            else ((k : Int) + 1))] ∧
      (blocksol ps mem).1.pending = [] ∧
      evalClause a ((List.range (picosat_variables ps)).map
        (fun k => if 0 < picosat_deref ps (k + 1) then -((k : Int) + 1)
          else ((k : Int) + 1))) = false ∧
      ∀ bb : List Bool, bb.length = picosat_variables ps →
        (evalClause bb ((List.range (picosat_variables ps)).map
          (fun k => if 0 < picosat_deref ps (k + 1) then -((k : Int) + 1)
            else ((k : Int) + 1))) = true ↔ bb ≠ a) := by
  obtain ⟨a, hhead, hamem, hps⟩ := sat_sat_elim hsat
  subst hps
  obtain ⟨halen, hacnf⟩ := mem_satisfying hamem
  have hform : blockClause { ps0 with lastSolution := some a }
      = (List.range (picosat_variables { ps0 with lastSolution := some a })).map
        (fun k => if 0 < picosat_deref { ps0 with lastSolution := some a } (k + 1)
          then -((k : Int) + 1) else ((k : Int) + 1)) := by
    unfold blockClause picosat_variables
    apply List.map_congr_left
    intro k _
    unfold memVal
    by_cases hd : 0 < picosat_deref { ps0 with lastSolution := some a } (k + 1)
    · rw [if_pos hd, if_pos hd]
      norm_num
    · rw [if_neg hd, if_neg hd]
      norm_num
  have hblock := blocksol_ps { ps0 with lastSolution := some a } mem hpend
  refine ⟨a, rfl, halen, ?_, ?_, ?_, ?_⟩
  · rw [hblock, ← hform]
  · rw [hblock]
  · rw [← hform]
    exact evalClause_blockClause_self rfl halen
  · intro bb hbb
    rw [← hform]
    exact evalClause_blockClause rfl halen hbb

theorem pycosat_C3_witness :
    (blocksol (⟨2, [], [[1, 2]], none, 0, some [false, true]⟩ : PicoSAT)
      none).1.clauses = [[1, 2], [1, -2]] := by
  obtain ⟨a, h1, h2, h3, h4, h5, h6⟩ :=
    @pycosat_C3 ⟨2, [], [[1, 2]], none, 0, none⟩
      ⟨2, [], [[1, 2]], none, 0, some [false, true]⟩ (-1) (by decide) rfl none
  rw [h3]
  decide

/-- Spec-side definition, following the claim's words: the number of distinct
variable indices referenced in the clause set.  To be compared with the
code's variable count (`picosat_variables` = maximum referenced index). -/
def numDistinctVars (cs : List (List Int)) : Nat :=
  (cs.flatten.map Int.natAbs).dedup.length

/-- C4 counterexample: on the clause set `[[2]]`, `solve` returns the
assignment `[-1, 2]` of length `2` — the maximum variable index — while the
number of distinct variable indices referenced is `1`.  The claim's "length
equals exactly the number of distinct variable indices referenced" is false
here. -/
theorem pycosat_C4_counterexample :
    (solve [[2]] (-1) 0 0).1 = SolveOutcome.solution [-1, 2] ∧
    numDistinctVars [[2]] = 1 ∧
    ¬(([-1, 2] : List Int).length = numDistinctVars [[2]]) := by
  refine ⟨by rfl, by decide, by decide⟩

/-- C4 (amended): for every valid clause set, `solve` returns either an
assignment whose length is exactly the *maximum variable index referenced in
the clauses* (or the configured `vars` hint if larger), or the symbolic
UNSAT/UNKNOWN value; a returned assignment never contains a zero and its
element at position `k` has magnitude `k + 1`, with the sign carrying the
variable's truth value. -/
theorem pycosat_C4_amended {cs : List (List Int)} {vars verbose : Int}
    {pl : Nat} (_hne : cs ≠ []) (hval : ∀ c ∈ cs, ∀ l ∈ c, l ≠ 0) :
    (∃ xs evs, solve cs vars verbose pl = (SolveOutcome.solution xs, evs) ∧
      xs.length = varCount cs vars ∧
      ∀ k (hk : k < xs.length),
        xs.get ⟨k, hk⟩ = (k : Int) + 1 ∨ xs.get ⟨k, hk⟩ = -((k : Int) + 1)) ∨
    (solve cs vars verbose pl).1 = SolveOutcome.unsat ∨
    (solve cs vars verbose pl).1 = SolveOutcome.unknown := by
  obtain ⟨ps, hsetup⟩ := setup_ok_of_valid hval
  obtain ⟨he, hpend, hcl, hmax, hplim, hlast, _⟩ := setup_ok hsetup
  rcases hsat : picosat_sat ps (-1) with ⟨res, ps1⟩
  cases res with
  | unsatisfiable =>
    right
    left
    rw [solve_unsat hsetup hsat]
  | unknown =>
    right
    right
    rw [solve_unknown hsetup hsat]
  | satisfiable =>
    left
    obtain ⟨a, hhead, hamem, hps1⟩ := sat_sat_elim hsat
    subst hps1
    refine ⟨get_solution { ps with lastSolution := some a },
      [] ++ [Ev.gilRelease, Ev.satCall, Ev.gilAcquire] ++ [Ev.reset],
      solve_sat hsetup hsat, ?_, ?_⟩
    · rw [get_solution_eq
        (show ({ ps with lastSolution := some a } : PicoSAT).lastSolution
          = some a from rfl)]
      rw [decodeA_length]
      exact hmax
    · intro k hk
      have hgetD : ∀ (l : List Int) (hk2 : k < l.length),
          l.get ⟨k, hk2⟩ = l.getD k 0 := by
        intro l hk2
        rw [List.getD_eq_getElem _ _ hk2]
        simp
      rw [hgetD _ hk]
      rw [get_solution_eq
        (show ({ ps with lastSolution := some a } : PicoSAT).lastSolution
          = some a from rfl)] at hk ⊢
      rw [decodeA_length] at hk
      rw [decodeA_getD a hk]
      by_cases hg : a.getD k false = true
      · left
        rw [if_pos hg]
      · right
        rw [if_neg hg]

theorem pycosat_C4_witness :
    (∃ xs evs, solve [[1]] (-1) 0 0 = (SolveOutcome.solution xs, evs) ∧
      xs.length = varCount [[1]] (-1) ∧
      ∀ k (hk : k < xs.length),
        xs.get ⟨k, hk⟩ = (k : Int) + 1 ∨ xs.get ⟨k, hk⟩ = -((k : Int) + 1)) ∨
    (solve [[1]] (-1) 0 0).1 = SolveOutcome.unsat ∨
    (solve [[1]] (-1) 0 0).1 = SolveOutcome.unknown :=
  pycosat_C4_amended (by decide) (by decide)

/-- C5: a clause set containing a `0` literal makes both `solve` and
`itersolve` raise the zero-literal `ValueError` before any engine invocation
(the event trace holds no engine call), and the partially loaded session is
reset exactly once before the error propagates. -/
theorem pycosat_C5 {cs : List (List Int)} {vars verbose : Int} {pl : Nat}
    (h : ∃ c ∈ cs, (0 : Int) ∈ c) :
    solve cs vars verbose pl
        = (SolveOutcome.error "non-zero interger expected", [Ev.reset]) ∧
    itersolve cs vars verbose pl
        = (Except.error "non-zero interger expected", [Ev.reset]) := by
  constructor
  · exact solve_err (setup_err h)
  · unfold itersolve
    rw [setup_err h]

theorem pycosat_C5_witness :
    solve [[0]] (-1) 0 0
        = (SolveOutcome.error "non-zero interger expected", [Ev.reset]) ∧
    itersolve [[0]] (-1) 0 0
        = (Except.error "non-zero interger expected", [Ev.reset]) :=
  pycosat_C5 (by decide)

/-- C6 counterexample: on the unsatisfiable clause set `[[1], [-1]]`, the
exhausting advance of the cursor yields nothing — but the advance performs
*no* engine reset at that point (the claim says the Solver Session is
released at exhaustion; the code releases it only in `soliter_dealloc`). -/
theorem pycosat_C6_counterexample :
    itersolve [[1], [-1]] (-1) 0 0
      = (Except.ok ⟨⟨1, [], [[1], [-1]], none, 0, none⟩, none⟩, []) ∧
    (soliter_next ⟨⟨1, [], [[1], [-1]], none, 0, none⟩, none⟩).1 = none ∧
    (soliter_next ⟨⟨1, [], [[1], [-1]], none, 0, none⟩, none⟩).2.2.count Ev.reset
      = 0 := by
  refine ⟨by rfl, by decide, by decide⟩

/-- C6 (amended): when an advance of the cursor gets UNSATISFIABLE or UNKNOWN
from the engine, it returns nothing and leaves the session live (no reset in
that advance); the session is released exactly once, by the cursor's
teardown `soliter_dealloc`. -/
theorem pycosat_C6_amended {it : soliterobject}
    (h : (picosat_sat it.picosat (-1)).1 = SatRes.unsatisfiable ∨
      (picosat_sat it.picosat (-1)).1 = SatRes.unknown) :
    (soliter_next it).1 = none ∧
    (soliter_next it).2.2.count Ev.reset = 0 ∧
    (soliter_dealloc (soliter_next it).2.1).count Ev.reset = 1 := by
  rcases hsat : picosat_sat it.picosat (-1) with ⟨res, ps1⟩
  rw [hsat] at h
  dsimp only at h
  cases res with
  | satisfiable =>
    rcases h with h | h <;> exact SatRes.noConfusion h
  | unsatisfiable =>
    rw [soliter_next_unsat it hsat]
    refine ⟨rfl, rfl, ?_⟩
    unfold soliter_dealloc
    dsimp only
    cases it.mem <;> rfl
  | unknown =>
    rw [soliter_next_unknown it hsat]
    refine ⟨rfl, rfl, ?_⟩
    unfold soliter_dealloc
    dsimp only
    cases it.mem <;> rfl

theorem pycosat_C6_witness :
    (soliter_next ⟨⟨1, [], [[1], [-1]], none, 0, none⟩, some [0, 1]⟩).1 = none ∧
    (soliter_next ⟨⟨1, [], [[1], [-1]], none, 0, none⟩,
      some [0, 1]⟩).2.2.count Ev.reset = 0 ∧
    (soliter_dealloc (soliter_next ⟨⟨1, [], [[1], [-1]], none, 0, none⟩,
      some [0, 1]⟩).2.1).count Ev.reset = 1 :=
  pycosat_C6_amended (Or.inl (by decide))

/-- C7 (code bug): on the clause set `[[1, 2]]`, each of the first two
successful advances of the cursor allocates a fresh scratch buffer (one
`allocMem` event per advance, not "at most once per cursor"), the iterator's
`mem` field is still NULL afterwards — `blocksol` receives the pointer by
value and the allocation is never stored back — and teardown therefore frees
no buffer (no `freeMem` event), leaking every allocation. -/
theorem pycosat_C7_bug :
    itersolve [[1, 2]] (-1) 0 0
      = (Except.ok ⟨⟨2, [], [[1, 2]], none, 0, none⟩, none⟩, []) ∧
    (soliter_next ⟨⟨2, [], [[1, 2]], none, 0, none⟩, none⟩).1.isSome = true ∧
    (soliter_next ⟨⟨2, [], [[1, 2]], none, 0, none⟩, none⟩).2.2.count Ev.allocMem
      = 1 ∧
    (soliter_next
      (soliter_next ⟨⟨2, [], [[1, 2]], none, 0, none⟩, none⟩).2.1).1.isSome
      = true ∧
    (soliter_next
      (soliter_next ⟨⟨2, [], [[1, 2]], none, 0, none⟩, none⟩).2.1).2.2.count
        Ev.allocMem = 1 ∧
    (soliter_next
      (soliter_next ⟨⟨2, [], [[1, 2]], none, 0, none⟩, none⟩).2.1).2.1.mem
      = none ∧
    (soliter_dealloc (soliter_next
      (soliter_next ⟨⟨2, [], [[1, 2]], none, 0, none⟩, none⟩).2.1).2.1).count
        Ev.freeMem = 0 := by
  refine ⟨by rfl, by decide, by decide, by decide, by decide, by decide, by decide⟩

/-- C8: `solve` returns UNKNOWN only when a propagation limit was installed
(`prop_limit ≠ 0`); with `prop_limit = 0` the limit is never installed and
the result is an assignment or UNSAT; and a propagation limit too small for
the instance (below the modelled search effort) yields UNKNOWN — never a
spurious UNSAT. -/
theorem pycosat_C8 {cs : List (List Int)} {vars verbose : Int} (pl : Nat)
    (hval : ∀ c ∈ cs, ∀ l ∈ c, l ≠ 0) :
    ((solve cs vars verbose pl).1 = SolveOutcome.unknown → pl ≠ 0) ∧
    (pl = 0 →
      (∃ xs evs, solve cs vars verbose pl = (SolveOutcome.solution xs, evs)) ∨
      (solve cs vars verbose pl).1 = SolveOutcome.unsat) ∧
    (pl ≠ 0 → pl < 2 ^ varCount cs vars →
      (solve cs vars verbose pl).1 = SolveOutcome.unknown) := by
  obtain ⟨ps, hsetup⟩ := @setup_ok_of_valid cs vars verbose pl hval
  obtain ⟨he, hpend, hcl, hmax, hplim, hlast, _⟩ := setup_ok hsetup
  refine ⟨?_, ?_, ?_⟩
  · intro hu hpl0
    subst hpl0
    rcases hsat : picosat_sat ps (-1) with ⟨res, ps1⟩
    cases res with
    | satisfiable =>
      rw [solve_sat hsetup hsat] at hu
      exact SolveOutcome.noConfusion hu
    | unsatisfiable =>
      rw [solve_unsat hsetup hsat] at hu
      exact SolveOutcome.noConfusion hu
    | unknown =>
      obtain ⟨l, hl, _, _⟩ := sat_unknown_elim hsat
      rw [hplim] at hl
      simp at hl
  · intro hpl0
    subst hpl0
    rcases hsat : picosat_sat ps (-1) with ⟨res, ps1⟩
    cases res with
    | satisfiable =>
      exact Or.inl ⟨get_solution ps1, _, solve_sat hsetup hsat⟩
    | unsatisfiable =>
      right
      rw [solve_unsat hsetup hsat]
    | unknown =>
      obtain ⟨l, hl, _, _⟩ := sat_unknown_elim hsat
      rw [hplim] at hl
      simp at hl
  · intro hpl0 hsmall
    have hlim : ps.propLimit = some pl := by
      rw [hplim, if_neg hpl0]
    have hsat := sat_unknown_of (-1) hlim (by rw [hmax]; exact hsmall)
    rw [solve_unknown hsetup hsat]

theorem pycosat_C8_witness :
    (((solve [[1]] (-1) 0 1).1 = SolveOutcome.unknown → (1 : Nat) ≠ 0) ∧
      ((1 : Nat) = 0 →
        (∃ xs evs, solve [[1]] (-1) 0 1 = (SolveOutcome.solution xs, evs)) ∨
        (solve [[1]] (-1) 0 1).1 = SolveOutcome.unsat) ∧
      ((1 : Nat) ≠ 0 → 1 < 2 ^ varCount [[1]] (-1) →
        (solve [[1]] (-1) 0 1).1 = SolveOutcome.unknown)) ∧
    ((solve [[1]] (-1) 0 0).1 = SolveOutcome.unknown → (0 : Nat) ≠ 0) :=
  ⟨@pycosat_C8 [[1]] (-1) 0 1 (by decide),
    (@pycosat_C8 [[1]] (-1) 0 0 (by decide)).1⟩

/-- C9: a successful `itersolve` copies every literal of the caller's clause
list into the engine during setup (the captured engine state records exactly
the input clauses), and the subsequent sequence of yielded solutions is a
function of the captured iterator state alone — in particular it does not
depend on the scratch-buffer field, and nothing else of the caller's input
is retained, so later mutation of the caller's list cannot change the
yields. -/
theorem pycosat_C9 {cs : List (List Int)} {vars verbose : Int} {pl : Nat}
    {it : soliterobject} {evs : List Ev}
    (h : itersolve cs vars verbose pl = (Except.ok it, evs)) :
    it.picosat.clauses = cs ∧ it.mem = none ∧
    ∀ (m : Option (List Int)) (fuel : Nat),
      (iterRun { picosat := it.picosat, mem := m } fuel).1
        = (iterRun it fuel).1 := by
  obtain ⟨hmem, hpend, hcl, _, _, _, _, _⟩ := itersolve_ok h
  refine ⟨hcl, hmem, ?_⟩
  intro m fuel
  have heta : ({ picosat := it.picosat, mem := it.mem } : soliterobject) = it :=
    rfl
  rw [← heta]
  exact iterRun_mem_indep fuel it.picosat m it.mem

theorem pycosat_C9_witness :
    (⟨⟨1, [], [[1]], none, 0, none⟩, none⟩ : soliterobject).picosat.clauses
      = [[1]] ∧
    (⟨⟨1, [], [[1]], none, 0, none⟩, none⟩ : soliterobject).mem = none ∧
    (iterRun ⟨⟨1, [], [[1]], none, 0, none⟩, some [5]⟩ 2).1
      = (iterRun ⟨⟨1, [], [[1]], none, 0, none⟩, none⟩ 2).1 := by
  obtain ⟨h1, h2, h3⟩ :=
    @pycosat_C9 [[1]] (-1) 0 0 ⟨⟨1, [], [[1]], none, 0, none⟩, none⟩ []
      (by rfl)
  exact ⟨h1, h2, h3 (some [5]) 2⟩

/-- Is this event a GIL transition? -/
def isGil : Ev → Bool
  | Ev.gilRelease => true
  | Ev.gilAcquire => true
  | _ => false

/-- Is this event a GIL transition or the engine invocation? -/
def isEngineEv : Ev → Bool
  | Ev.gilRelease => true
  | Ev.gilAcquire => true
  | Ev.satCall => true
  | _ => false

/-- C10: in every `solve` and every cursor advance, the engine invocation is
bracketed by exactly one GIL release immediately before it and one GIL
acquire immediately after it (everything else — decoding, blocking-clause
allocation, reset — happens after reacquisition), and no other operation of
the binding (setup, `itersolve`, teardown, `blocksol`) touches the GIL. -/
theorem pycosat_C10 (cs : List (List Int)) (vars verbose : Int) (pl : Nat)
    (it : soliterobject) (ps : PicoSAT) (mem : Option (List Int)) :
    ((solve cs vars verbose pl).2.filter isEngineEv
        = [Ev.gilRelease, Ev.satCall, Ev.gilAcquire] ∨
      (solve cs vars verbose pl).2 = [Ev.reset]) ∧
    (soliter_next it).2.2.filter isEngineEv
      = [Ev.gilRelease, Ev.satCall, Ev.gilAcquire] ∧
    (setup_picosat cs vars verbose pl).2.filter isGil = [] ∧
    (itersolve cs vars verbose pl).2.filter isGil = [] ∧
    (soliter_dealloc it).filter isGil = [] ∧
    (blocksol ps mem).2.2.filter isGil = [] := by
  refine ⟨?_, ?_, ?_, ?_, ?_, ?_⟩
  · rcases hsetup : setup_picosat cs vars verbose pl with ⟨r, evs0⟩
    cases r with
    | error msg =>
      right
      rw [solve_err hsetup]
      exact setup_err_evs hsetup
    | ok ps2 =>
      left
      obtain ⟨he, _, _, _, _, _, _⟩ := setup_ok hsetup
      subst he
      rcases hsat : picosat_sat ps2 (-1) with ⟨res, ps3⟩
      cases res with
      | satisfiable => rw [solve_sat hsetup hsat]; rfl
      | unsatisfiable => rw [solve_unsat hsetup hsat]; rfl
      | unknown => rw [solve_unknown hsetup hsat]; rfl
  · rcases hsat : picosat_sat it.picosat (-1) with ⟨res, ps1⟩
    cases res with
    | satisfiable =>
      rw [soliter_next_sat it hsat]
      dsimp only
      rw [List.filter_append]
      cases it.mem <;> rfl
    | unsatisfiable => rw [soliter_next_unsat it hsat]; rfl
    | unknown => rw [soliter_next_unknown it hsat]; rfl
  · rcases setup_evs cs vars verbose pl with h0 | h0 <;> rw [h0] <;> rfl
  · unfold itersolve
    rcases hsetup : setup_picosat cs vars verbose pl with ⟨r, evs0⟩
    have h0 := setup_evs cs vars verbose pl
    rw [hsetup] at h0
    dsimp only at h0
    cases r with
    | error msg =>
      dsimp only
      rcases h0 with h0 | h0 <;> rw [h0] <;> rfl
    | ok ps2 =>
      dsimp only
      rcases h0 with h0 | h0 <;> rw [h0] <;> rfl
  · unfold soliter_dealloc
    cases it.mem <;> rfl
  · cases mem with
    | none => rw [blocksol_evs_none]; rfl
    | some mm => rw [blocksol_evs_some]; rfl

end Pycosat
